import Mathlib

/-!
Shallow embedding of the class-scheduling genetic algorithm (src/src/main.rs).

Conventions of the embedding:
* Rust `f64` fitness values are modelled as exact rationals (`ℚ`); a separate
  NaN-aware model `F` is used where the spec talks about undefined orderings.
* Every source of randomness (`rng.choose`, `gen_range`, `gen_bool`) is an
  explicit parameter: a claim quantified over "every random outcome" is a
  theorem quantified over these parameters.
* A Rust panic (`unwrap` on `None`, out-of-range indexing, `gen_range` on an
  empty range) is modelled by `Option`: `none` means the program panics.
* `HashSet<(String, usize)>` is modelled by a `List (String × Nat)` used as a
  set: `insert` checks membership and conses when absent, exactly the
  observable behaviour of `HashSet::insert`.
-/

namespace ClaSchedGA

/-- One scheduled unit: mirrors `struct Class` in the source. -/
structure Class where
  subject : String
  instructor : String
  room : String
  time_slot : Nat
deriving DecidableEq, Repr

instance : Inhabited Class := ⟨⟨"", "", "", 0⟩⟩

/-- A candidate schedule: mirrors `struct Schedule` (fitness as exact `ℚ`). -/
structure Schedule where
  classes : List Class
  fitness : ℚ
deriving DecidableEq, Repr

/-- The `(room, time_slot)` key inserted into `room_time_map`. -/
def roomKey (c : Class) : String × Nat := (c.room, c.time_slot)

/-- The `(instructor, time_slot)` key inserted into `instructor_time_map`. -/
def instructorKey (c : Class) : String × Nat := (c.instructor, c.time_slot)

/-- The `(subject, time_slot)` key inserted into `course_time_map`. -/
def courseKey (c : Class) : String × Nat := (c.subject, c.time_slot)

/-- The formatted room-conflict description pushed onto `conflict_details`. -/
def roomMsg (k : String × Nat) : String :=
  "Room Conflict: " ++ k.1 ++ " at Time Slot " ++ toString k.2

/-- The formatted instructor-conflict description. -/
def instructorMsg (k : String × Nat) : String :=
  "Instructor Conflict: " ++ k.1 ++ " at Time Slot " ++ toString k.2

/-- The formatted course-conflict description. -/
def courseMsg (k : String × Nat) : String :=
  "Course Conflict: " ++ k.1 ++ " at Time Slot " ++ toString k.2 ++
    " (Multiple Rooms/Instructors)"

/-- The loop state of `Schedule::calculate_fitness`: the conflict counter, the
three seen-key sets and the accumulated conflict descriptions. -/
structure FitState where
  conflicts : Nat
  room_time_map : List (String × Nat)
  instructor_time_map : List (String × Nat)
  course_time_map : List (String × Nat)
  conflict_details : List String
deriving Repr

/-- One iteration of the `for class in classes` loop of `calculate_fitness`:
the room check, then the instructor check, then the course check, each
incrementing `conflicts` and recording a description when the key is already
present, and inserting the key otherwise. -/
def fitnessStep (st : FitState) (c : Class) : FitState :=
  let rk := roomKey c
  let st1 :=
    if rk ∈ st.room_time_map then
      { st with conflicts := st.conflicts + 1,
                conflict_details := st.conflict_details ++ [roomMsg rk] }
    else
      { st with room_time_map := rk :: st.room_time_map }
  let ik := instructorKey c
  let st2 :=
    if ik ∈ st1.instructor_time_map then
      { st1 with conflicts := st1.conflicts + 1,
                 conflict_details := st1.conflict_details ++ [instructorMsg ik] }
    else
      { st1 with instructor_time_map := ik :: st1.instructor_time_map }
  let ck := courseKey c
  if ck ∈ st2.course_time_map then
    { st2 with conflicts := st2.conflicts + 1,
               conflict_details := st2.conflict_details ++ [courseMsg ck] }
  else
    { st2 with course_time_map := ck :: st2.course_time_map }

/-- The initial state of the `calculate_fitness` loop. -/
def initFitState : FitState := ⟨0, [], [], [], []⟩

/-- The full conflict-detection pass of `Schedule::calculate_fitness`. -/
def conflictData (classes : List Class) : FitState :=
  classes.foldl fitnessStep initFitState

/-- The total conflict count computed by `calculate_fitness`. -/
def conflict_count (classes : List Class) : Nat :=
  (conflictData classes).conflicts

/-- The conflict descriptions accumulated by `calculate_fitness`, in the order
they are printed. -/
def conflict_details (classes : List Class) : List String :=
  (conflictData classes).conflict_details

/-- The returned value of `Schedule::calculate_fitness`:
`1.0 / (1.0 + conflicts as f64)`, modelled exactly over `ℚ`. -/
def calculate_fitness (classes : List Class) : ℚ :=
  1 / (1 + (conflict_count classes : ℚ))

/-- Single-dimension duplicate scan: given the keys already seen, returns (in
order, with multiplicity) the keys whose insertion collides, i.e. the keys
that contribute one conflict each in one dimension of `calculate_fitness`. -/
def dups {α : Type} [DecidableEq α] (seen : List α) : List α → List α
  | [] => []
  | k :: ks => if k ∈ seen then k :: dups seen ks else dups (k :: seen) ks

/-- A model of `f64` sufficient to discuss NaN: either NaN or a finite
rational value. -/
inductive F where
  | nan : F
  | val : ℚ → F
deriving DecidableEq, Repr

/-- `f64` addition on the model (NaN is absorbing). -/
def addF : F → F → F
  | F.nan, _ => F.nan
  | _, F.nan => F.nan
  | F.val a, F.val b => F.val (a + b)

/-- Model of `f64` division. NaN is absorbing and a zero divisor is modelled
conservatively as NaN (the unordered case). -/
def divF : F → F → F
  | F.nan, _ => F.nan
  | _, F.nan => F.nan
  | F.val a, F.val b => if b = 0 then F.nan else F.val (a / b)

/-- Model of `f64::partial_cmp`: `none` exactly when an operand is NaN; this
`none` is what the `unwrap` in the population sort would panic on. -/
def fcmp : F → F → Option Ordering
  | F.nan, _ => none
  | _, F.nan => none
  | F.val a, F.val b => some (compare a b)

/-- `calculate_fitness` recomputed in the NaN-aware `f64` model:
`1.0 / (1.0 + conflicts as f64)`. -/
def calculate_fitnessF (classes : List Class) : F :=
  divF (F.val 1) (addF (F.val 1) (F.val (conflict_count classes : ℚ)))

/-- Option-valued map: `none` as soon as `f` fails on an element. This is the
shape of every Rust loop of the program that can panic mid-iteration. -/
def mapO {α β : Type} (f : α → Option β) : List α → Option (List β)
  | [] => some []
  | a :: l => do
      let b ← f a
      let bs ← mapO f l
      pure (b :: bs)

/-- `Schedule::crossover`'s class assembly: for each index `i` below
`self.classes.len()`, take `self.classes[i]` when the coin is true and
`other.classes[i]` otherwise. Indexing `other` out of range is the panic
(`none`) of the source's `other.classes[i]`. -/
def crossoverClasses (a b : List Class) (coins : Nat → Bool) :
    Option (List Class) :=
  mapO (fun i => if coins i then a[i]? else b[i]?) (List.range a.length)

/-- `Schedule::crossover`: assemble the child's classes, then recompute its
fitness from them. `coins` is the stream of `rng.gen_bool(0.5)` outcomes. -/
def crossover (s o : Schedule) (coins : Nat → Bool) : Option Schedule := do
  let nc ← crossoverClasses s.classes o.classes coins
  pure { classes := nc, fitness := calculate_fitness nc }

/-- `Schedule::mutate`: `choose_mut` picks position `j % len` when the class
list is nonempty (and does nothing when it is empty), the chosen class gets a
fresh instructor, room and time slot sampled by indices `ii`, `ri`, `ti`
(`choose().unwrap()` on an empty pool and `gen_range(0..0)` are the panics),
and the fitness is recomputed afterwards in every case. -/
def mutateS (instructors rooms : List String) (time_slots : Nat)
    (s : Schedule) (j ii ri ti : Nat) : Option Schedule :=
  if s.classes.isEmpty then
    some { classes := s.classes, fitness := calculate_fitness s.classes }
  else do
    let pos := j % s.classes.length
    let old := s.classes.getD pos default
    let instructor ← instructors[ii % instructors.length]?
    let room ← rooms[ri % rooms.length]?
    let ts ← if 0 < time_slots then some (ti % time_slots) else none
    let cs := s.classes.set pos
      { old with instructor := instructor, room := room, time_slot := ts }
    pure { classes := cs, fitness := calculate_fitness cs }

/-- The body of the `for subject in subjects` loop of `Schedule::new`,
carrying the course index `k` to address the random picks: for each subject,
sample an instructor, a room and a time slot (`choose().unwrap()` on an empty
pool and `gen_range(0..0)` are the panics). -/
def buildClasses (instructors rooms : List String) (time_slots : Nat)
    (picks : Nat → Nat × Nat × Nat) : List String → Nat → Option (List Class)
  | [], _ => some []
  | subject :: rest, k => do
      let instructor ← instructors[(picks k).1 % instructors.length]?
      let room ← rooms[(picks k).2.1 % rooms.length]?
      let ts ← if 0 < time_slots then some ((picks k).2.2 % time_slots)
               else none
      let tail ← buildClasses instructors rooms time_slots picks rest (k + 1)
      pure ({ subject := subject, instructor := instructor, room := room,
              time_slot := ts } :: tail)

/-- `Schedule::new`: build one randomized class per subject, then compute the
fitness of the resulting class list. -/
def schedule_new (subjects instructors rooms : List String)
    (time_slots : Nat) (picks : Nat → Nat × Nat × Nat) : Option Schedule := do
  let cs ← buildClasses instructors rooms time_slots picks subjects 0
  pure { classes := cs, fitness := calculate_fitness cs }

/-- The random outcomes consumed while producing one child inside the
generation loop: the two parent picks, the crossover coins, the
`gen_bool(0.1)` mutation decision and the four mutation picks. -/
structure ChildRand where
  p1 : Nat
  p2 : Nat
  coins : Nat → Bool
  doMut : Bool
  mj : Nat
  mi : Nat
  mr : Nat
  mt : Nat

/-- The `while next_gen.len() < population_size` loop: produce `n` children,
`k` being the index of the next child in the random stream. Each child picks
two parents (`parents.choose(..).unwrap()` panics on an empty parent slice),
crosses them over, and is mutated when its 10%-coin came up true. -/
def makeChildren (instructors rooms : List String) (time_slots : Nat)
    (parents : List Schedule) (cr : Nat → ChildRand) :
    Nat → Nat → Option (List Schedule)
  | 0, _ => some []
  | n + 1, k => do
      let p1 ← parents[(cr k).p1 % parents.length]?
      let p2 ← parents[(cr k).p2 % parents.length]?
      let child ← crossover p1 p2 (cr k).coins
      let child ←
        if (cr k).doMut then
          mutateS instructors rooms time_slots child
            (cr k).mj (cr k).mi (cr k).mr (cr k).mt
        else pure child
      let rest ← makeChildren instructors rooms time_slots parents cr n (k + 1)
      pure (child :: rest)

/-- The comparator of the population sort: `a` may precede `b` when
`b.fitness ≤ a.fitness` (descending fitness, ties keeping original order). -/
def fitGe (a b : Schedule) : Prop := b.fitness ≤ a.fitness

instance : DecidableRel fitGe := fun a b =>
  inferInstanceAs (Decidable (b.fitness ≤ a.fitness))

instance : IsTotal Schedule fitGe := ⟨fun a b => le_total b.fitness a.fitness⟩

instance : IsTrans Schedule fitGe := ⟨fun _ _ _ h1 h2 => le_trans h2 h1⟩

/-- The population sort
`population.sort_by(|a, b| b.fitness.partial_cmp(&a.fitness).unwrap())`:
a stable sort placing higher fitness first. A stable sort's output is
determined by the inclusive comparator, so insertion sort computes the same
list as the source's stable `sort_by`. -/
def sortPop (pop : List Schedule) : List Schedule :=
  List.insertionSort fitGe pop

/-- One iteration of the `for gen in 0..generations` loop: sort the population
by descending fitness, read off the best candidate for the progress report
(`population[0]` — the panic when the population is empty), slice off the top
half as parents (the slice `..population_size / 2` panics when the population
is shorter), and fill the next generation with children until it has
`population_size` members. -/
def evolveStep (instructors rooms : List String)
    (time_slots population_size : Nat) (cr : Nat → ChildRand)
    (pop : List Schedule) : Option (List Schedule) := do
  let sorted := sortPop pop
  let _best ← sorted[0]?
  let parents ←
    if population_size / 2 ≤ sorted.length then
      pure (sorted.take (population_size / 2))
    else none
  let children ← makeChildren instructors rooms time_slots parents cr
    (population_size - parents.length) 0
  pure (parents ++ children)

/-- The generation loop of `genetic_algorithm`, run for `g` generations;
`idx` indexes the per-generation random streams. -/
def runGens (instructors rooms : List String)
    (time_slots population_size : Nat) (gr : Nat → Nat → ChildRand) :
    Nat → Nat → List Schedule → Option (List Schedule)
  | 0, _, pop => pure pop
  | g + 1, idx, pop => do
      let pop' ← evolveStep instructors rooms time_slots population_size
        (gr idx) pop
      runGens instructors rooms time_slots population_size gr g (idx + 1) pop'

/-- The initial population: `population_size` calls of `Schedule::new`,
`ir m` being the random picks of the `m`-th schedule. -/
def initPop (subjects instructors rooms : List String) (time_slots : Nat)
    (ir : Nat → Nat → Nat × Nat × Nat) (population_size : Nat) :
    Option (List Schedule) :=
  mapO (fun m => schedule_new subjects instructors rooms time_slots (ir m))
    (List.range population_size)

/-- `genetic_algorithm`: initial population, `generations` evolution steps,
then a final sort and `population[0].clone()` (the panic when the final
population is empty). -/
def geneticAlgorithm (subjects instructors rooms : List String)
    (time_slots population_size generations : Nat)
    (ir : Nat → Nat → Nat × Nat × Nat) (gr : Nat → Nat → ChildRand) :
    Option Schedule := do
  let pop0 ← initPop subjects instructors rooms time_slots ir population_size
  let final ← runGens instructors rooms time_slots population_size gr
    generations 0 pop0
  (sortPop final)[0]?

/-- The best fitness present in a population (`⊥` for an empty one). -/
def bestFit (pop : List Schedule) : WithBot ℚ :=
  pop.foldr (fun s m => max ((s.fitness : ℚ) : WithBot ℚ) m) ⊥

/-- Candidate-set predicate of end-to-end scenario B: every class is pinned to
the single instructor `i0`, the single room `r0` and the single time slot 0. -/
def pinned (i0 r0 : String) (cs : List Class) : Prop :=
  ∀ c ∈ cs, c.instructor = i0 ∧ c.room = r0 ∧ c.time_slot = 0

/-- Alignment of a class list with the problem's course list: one class per
course, in input order. -/
def alignedWith (subjects : List String) (cs : List Class) : Prop :=
  cs.length = subjects.length ∧
    ∀ i, i < cs.length → (cs.getD i default).subject = subjects.getD i ""

/-- Time-slot bound invariant: every class sits strictly below the configured
number of time slots. -/
def tsBounded (time_slots : Nat) (cs : List Class) : Prop :=
  ∀ c ∈ cs, c.time_slot < time_slots

instance (i0 r0 : String) (cs : List Class) : Decidable (pinned i0 r0 cs) :=
  List.decidableBAll _ cs

instance (subjects : List String) (cs : List Class) :
    Decidable (alignedWith subjects cs) :=
  inferInstanceAs (Decidable (_ ∧ ∀ i, i < cs.length → _ = _))

instance (time_slots : Nat) (cs : List Class) :
    Decidable (tsBounded time_slots cs) :=
  List.decidableBAll _ cs

/-- A concrete class used by the concrete-input witnesses. -/
def cEx : Class := ⟨"Math", "Dr. Smith", "Room 101", 0⟩

/-- A concrete schedule with no classes and its computed fitness, used by the
concrete-input witnesses of the evolution loop. -/
def sEx0 : Schedule := ⟨[], calculate_fitness []⟩

/-- A second concrete class (distinct subject) used by the witnesses. -/
def cEx2 : Class := ⟨"Physics", "Dr. Smith", "Room 101", 0⟩

/-- A concrete schedule with no classes, used by the witnesses. -/
def sEx : Schedule := ⟨[], 1⟩

/-- A concrete deterministic child-randomness bundle for the witnesses. -/
def crEx : ChildRand := ⟨0, 0, fun _ => true, false, 0, 0, 0, 0⟩

/-! ### Component lemmas for one step of the conflict-detection loop -/

theorem fitnessStep_room_map (st : FitState) (c : Class) :
    (fitnessStep st c).room_time_map =
      if roomKey c ∈ st.room_time_map then st.room_time_map
      else roomKey c :: st.room_time_map := by
  simp only [fitnessStep]
  split_ifs <;> rfl

theorem fitnessStep_instructor_map (st : FitState) (c : Class) :
    (fitnessStep st c).instructor_time_map =
      if instructorKey c ∈ st.instructor_time_map then st.instructor_time_map
      else instructorKey c :: st.instructor_time_map := by
  simp only [fitnessStep]
  split_ifs <;> rfl

theorem fitnessStep_course_map (st : FitState) (c : Class) :
    (fitnessStep st c).course_time_map =
      if courseKey c ∈ st.course_time_map then st.course_time_map
      else courseKey c :: st.course_time_map := by
  simp only [fitnessStep]
  split_ifs <;> rfl

theorem fitnessStep_conflicts (st : FitState) (c : Class) :
    (fitnessStep st c).conflicts =
      st.conflicts +
        ((if roomKey c ∈ st.room_time_map then 1 else 0) +
         (if instructorKey c ∈ st.instructor_time_map then 1 else 0) +
         (if courseKey c ∈ st.course_time_map then 1 else 0)) := by
  simp only [fitnessStep]
  split_ifs <;> simp

theorem fitnessStep_details (st : FitState) (c : Class) :
    (fitnessStep st c).conflict_details =
      st.conflict_details ++
        (if roomKey c ∈ st.room_time_map then [roomMsg (roomKey c)] else []) ++
        (if instructorKey c ∈ st.instructor_time_map then
          [instructorMsg (instructorKey c)] else []) ++
        (if courseKey c ∈ st.course_time_map then
          [courseMsg (courseKey c)] else []) := by
  simp only [fitnessStep]
  split_ifs <;> simp

/-! ### The duplicate scan `dups` and its permutation invariance -/

theorem dups_congr {α : Type} [DecidableEq α] {s₁ s₂ : List α}
    (h : ∀ a, a ∈ s₁ ↔ a ∈ s₂) : ∀ l, dups s₁ l = dups s₂ l := by
  intro l
  induction l generalizing s₁ s₂ with
  | nil => rfl
  | cons k ks ih =>
    by_cases hk : k ∈ s₁
    · rw [dups, if_pos hk, dups, if_pos ((h k).mp hk), ih h]
    · rw [dups, if_neg hk, dups, if_neg (fun hc => hk ((h k).mpr hc))]
      exact ih (fun a => by simp [List.mem_cons, h a])

theorem dups_perm {α : Type} [DecidableEq α] {l₁ l₂ : List α}
    (h : l₁.Perm l₂) : ∀ s, (dups s l₁).Perm (dups s l₂) := by
  induction h with
  | nil => intro s; exact List.Perm.refl _
  | cons x _ ih =>
    intro s
    by_cases hx : x ∈ s
    · rw [dups, if_pos hx, dups, if_pos hx]
      exact (ih s).cons x
    · rw [dups, if_neg hx, dups, if_neg hx]
      exact ih (x :: s)
  | swap x y l =>
    intro s
    by_cases hy : y ∈ s <;> by_cases hx : x ∈ s
    · simp only [dups, if_pos hy, if_pos hx]
      exact List.Perm.swap x y _
    · simp only [dups, if_pos hy, if_neg hx,
        if_pos (List.mem_cons_of_mem x hy)]
      exact List.Perm.refl _
    · simp only [dups, if_neg hy, if_pos hx,
        if_pos (List.mem_cons_of_mem y hx)]
      exact List.Perm.refl _
    · by_cases hxy : y = x
      · subst hxy
        exact List.Perm.refl _
      · have hyx : ¬y ∈ x :: s := by
          simp only [List.mem_cons]
          exact fun hc => hc.elim hxy hy
        have hxy2 : ¬x ∈ y :: s := by
          simp only [List.mem_cons]
          exact fun hc => hc.elim (fun e => hxy e.symm) hx
        simp only [dups, if_neg hy, if_neg hx, if_neg hyx, if_neg hxy2]
        rw [@dups_congr α _ (x :: y :: s) (y :: x :: s)
          (fun a => by simp [List.mem_cons]; tauto) l]
  | trans _ _ ih₁ ih₂ =>
    intro s
    exact (ih₁ s).trans (ih₂ s)

/-! ### Decomposition of the interleaved loop into three duplicate scans -/

theorem conflicts_decomp (l : List Class) :
    ∀ st : FitState,
      (List.foldl fitnessStep st l).conflicts =
        st.conflicts +
          ((dups st.room_time_map (l.map roomKey)).length +
           (dups st.instructor_time_map (l.map instructorKey)).length +
           (dups st.course_time_map (l.map courseKey)).length) := by
  induction l with
  | nil => intro st; simp [dups]
  | cons c l ih =>
    intro st
    rw [List.foldl_cons, ih (fitnessStep st c), fitnessStep_conflicts,
      fitnessStep_room_map, fitnessStep_instructor_map, fitnessStep_course_map]
    simp only [List.map_cons, dups]
    split_ifs <;> simp <;> omega

theorem details_decomp (l : List Class) :
    ∀ st : FitState,
      ((List.foldl fitnessStep st l).conflict_details : Multiset String) =
        (st.conflict_details : Multiset String) +
          (((dups st.room_time_map (l.map roomKey)).map roomMsg :
              List String) : Multiset String) +
          (((dups st.instructor_time_map (l.map instructorKey)).map
              instructorMsg : List String) : Multiset String) +
          (((dups st.course_time_map (l.map courseKey)).map courseMsg :
              List String) : Multiset String) := by
  induction l with
  | nil => intro st; simp [dups]
  | cons c l ih =>
    intro st
    rw [List.foldl_cons, ih (fitnessStep st c), fitnessStep_details,
      fitnessStep_room_map, fitnessStep_instructor_map, fitnessStep_course_map]
    simp only [List.map_cons, dups]
    split_ifs <;>
      simp only [List.map_cons, List.map_nil, List.append_nil,
        ← Multiset.coe_add, ← Multiset.cons_coe, ← Multiset.singleton_add] <;>
      abel

/-- Claim C1: for every candidate, the fitness computed by
`calculate_fitness` equals `1 / (1 + conflict_count)`, lies in `(0, 1]`,
equals 1 exactly when the conflict count is 0, and strictly decreases as the
conflict count increases. -/
theorem calculate_fitness_spec (classes : List Class) :
    calculate_fitness classes = 1 / (1 + (conflict_count classes : ℚ)) ∧
    0 < calculate_fitness classes ∧
    calculate_fitness classes ≤ 1 ∧
    (calculate_fitness classes = 1 ↔ conflict_count classes = 0) ∧
    ∀ other : List Class, conflict_count classes < conflict_count other →
      calculate_fitness other < calculate_fitness classes := by
  have hk : (0 : ℚ) ≤ (conflict_count classes : ℚ) := Nat.cast_nonneg _
  have hpos : (0 : ℚ) < 1 + (conflict_count classes : ℚ) := by linarith
  refine ⟨rfl, ?_, ?_, ?_, ?_⟩
  · unfold calculate_fitness
    positivity
  · unfold calculate_fitness
    rw [div_le_one hpos]
    linarith
  · unfold calculate_fitness
    rw [div_eq_one_iff_eq hpos.ne']
    constructor
    · intro h
      have hz : (conflict_count classes : ℚ) = 0 := by linarith
      exact_mod_cast hz
    · intro h
      rw [h]
      norm_num
  · intro other hlt
    unfold calculate_fitness
    have hpos2 : (0 : ℚ) < 1 + (conflict_count other : ℚ) := by positivity
    have hlt2 : (1 : ℚ) + (conflict_count classes : ℚ) <
        1 + (conflict_count other : ℚ) := by
      have hc : (conflict_count classes : ℚ) < (conflict_count other : ℚ) := by
        exact_mod_cast hlt
      linarith
    exact one_div_lt_one_div_of_lt hpos hlt2

/-- Witness for C1 at concrete inputs: the empty candidate has fitness 1, and
a candidate with more conflicts has strictly smaller fitness. -/
theorem calculate_fitness_spec_witness :
    calculate_fitness ([] : List Class) = 1 ∧
    calculate_fitness [cEx, cEx] < calculate_fitness ([] : List Class) :=
  ⟨(calculate_fitness_spec []).2.2.2.1.mpr (by decide),
   (calculate_fitness_spec []).2.2.2.2 [cEx, cEx] (by decide)⟩

/-- Claim C2: permuting the class list leaves the conflict count (hence the
fitness) unchanged, and changes at most the order of the reported conflict
descriptions. -/
theorem conflict_count_perm (l₁ l₂ : List Class) (h : l₁.Perm l₂) :
    conflict_count l₁ = conflict_count l₂ ∧
    calculate_fitness l₁ = calculate_fitness l₂ ∧
    (conflict_details l₁).Perm (conflict_details l₂) := by
  have hcount : conflict_count l₁ = conflict_count l₂ := by
    unfold conflict_count conflictData
    rw [conflicts_decomp, conflicts_decomp]
    simp only [initFitState]
    have h1 := (dups_perm (h.map roomKey) []).length_eq
    have h2 := (dups_perm (h.map instructorKey) []).length_eq
    have h3 := (dups_perm (h.map courseKey) []).length_eq
    omega
  refine ⟨hcount, by unfold calculate_fitness; rw [hcount], ?_⟩
  rw [← Multiset.coe_eq_coe]
  unfold conflict_details conflictData
  rw [details_decomp l₁ initFitState, details_decomp l₂ initFitState]
  simp only [initFitState]
  have e1 := Multiset.coe_eq_coe.mpr ((dups_perm (h.map roomKey) []).map
    roomMsg)
  have e2 := Multiset.coe_eq_coe.mpr ((dups_perm (h.map instructorKey) []).map
    instructorMsg)
  have e3 := Multiset.coe_eq_coe.mpr ((dups_perm (h.map courseKey) []).map
    courseMsg)
  rw [e1, e2, e3]

/-- Witness for C2 at a concrete pair of permuted class lists. -/
theorem conflict_count_perm_witness :
    conflict_count [cEx, cEx2] = conflict_count [cEx2, cEx] ∧
    calculate_fitness [cEx, cEx2] = calculate_fitness [cEx2, cEx] ∧
    (conflict_details [cEx, cEx2]).Perm (conflict_details [cEx2, cEx]) :=
  conflict_count_perm [cEx, cEx2] [cEx2, cEx] (List.Perm.swap cEx2 cEx [])

/-! ### Inversion of the Option-valued map -/

theorem mapO_some_iff {α β : Type} {f : α → Option β} :
    ∀ {l : List α} {r : List β},
      mapO f l = some r ↔ List.Forall₂ (fun x y => f x = some y) l r := by
  intro l
  induction l with
  | nil =>
    intro r
    constructor
    · intro h
      simp only [mapO, Option.some.injEq] at h
      subst h
      exact List.Forall₂.nil
    · intro h
      cases h
      rfl
  | cons a l ih =>
    intro r
    constructor
    · intro h
      rw [mapO] at h
      simp only [bind, Option.bind_eq_some, Option.pure_def,
        Option.some.injEq] at h
      obtain ⟨b, hb, bs, hbs, hr⟩ := h
      subst hr
      exact List.Forall₂.cons hb (ih.mp hbs)
    · intro h
      cases h with
      | cons hab htail =>
        rw [mapO]
        simp only [bind, hab, Option.some_bind, ih.mpr htail]
        rfl

theorem forall₂_map_self {α β : Type} {R : α → β → Prop} (g : α → β) :
    ∀ l : List α, (∀ x ∈ l, R x (g x)) → List.Forall₂ R l (l.map g)
  | [], _ => List.Forall₂.nil
  | a :: l, h =>
    List.Forall₂.cons (h a (List.mem_cons_self a l))
      (forall₂_map_self g l (fun x hx => h x (List.mem_cons_of_mem a hx)))

theorem forall₂_getElem? {α β : Type} {R : α → β → Prop} :
    ∀ {l₁ : List α} {l₂ : List β}, List.Forall₂ R l₁ l₂ →
      ∀ {i : Nat} {x : α} {y : β},
        l₁[i]? = some x → l₂[i]? = some y → R x y := by
  intro l₁ l₂ h
  induction h with
  | nil => intro i x y hx _; simp at hx
  | cons hab _ ih =>
    intro i x y hx hy
    cases i with
    | zero =>
      simp only [List.getElem?_cons_zero, Option.some.injEq] at hx hy
      subst hx
      subst hy
      exact hab
    | succ i =>
      simp only [List.getElem?_cons_succ] at hx hy
      exact ih hx hy

theorem forall₂_mem_right {α β : Type} {R : α → β → Prop} :
    ∀ {l₁ : List α} {l₂ : List β}, List.Forall₂ R l₁ l₂ →
      ∀ y ∈ l₂, ∃ x ∈ l₁, R x y := by
  intro l₁ l₂ h
  induction h with
  | nil => intro y hy; simp at hy
  | cons hab _ ih =>
    intro y hy
    rcases List.mem_cons.mp hy with rfl | hy'
    · exact ⟨_, List.mem_cons_self _ _, hab⟩
    · obtain ⟨x, hx, hxy⟩ := ih y hy'
      exact ⟨x, List.mem_cons_of_mem _ hx, hxy⟩

/-- Claim C3: crossover of equal-length parents always succeeds, the child has
the parents' length, each child position is the corresponding position of one
of the two parents, and the child's fitness is recomputed from its own
classes. -/
theorem crossover_spec (a b : Schedule) (coins : Nat → Bool)
    (h : a.classes.length = b.classes.length) :
    ∃ ch, crossover a b coins = some ch ∧
      ch.classes.length = a.classes.length ∧
      (∀ i, i < ch.classes.length →
        ch.classes[i]? = a.classes[i]? ∨ ch.classes[i]? = b.classes[i]?) ∧
      ch.fitness = calculate_fitness ch.classes := by
  have hall : ∀ i ∈ List.range a.classes.length,
      (if coins i then a.classes[i]? else b.classes[i]?) =
        some (if coins i then a.classes.getD i default
              else b.classes.getD i default) := by
    intro i hi
    rw [List.mem_range] at hi
    by_cases hc : coins i
    · simp only [if_pos hc]
      rw [List.getElem?_eq_getElem hi, List.getD_eq_getElem _ _ hi]
    · have hi' : i < b.classes.length := h ▸ hi
      simp only [if_neg hc]
      rw [List.getElem?_eq_getElem hi', List.getD_eq_getElem _ _ hi']
  have hcc : crossoverClasses a.classes b.classes coins =
      some ((List.range a.classes.length).map
        (fun i => if coins i then a.classes.getD i default
                  else b.classes.getD i default)) :=
    mapO_some_iff.mpr (forall₂_map_self _ _ hall)
  refine ⟨_, by rw [crossover, hcc]; rfl, by simp, ?_, rfl⟩
  intro i hi
  simp only [List.length_map, List.length_range] at hi
  have hval : ((List.range a.classes.length).map
      (fun i => if coins i then a.classes.getD i default
                else b.classes.getD i default))[i]? =
      some (if coins i then a.classes.getD i default
            else b.classes.getD i default) := by
    rw [List.getElem?_map, List.getElem?_range hi]
    rfl
  by_cases hc : coins i
  · left
    rw [hval, List.getElem?_eq_getElem hi]
    simp only [if_pos hc, List.getD_eq_getElem _ _ hi]
  · right
    have hi' : i < b.classes.length := h ▸ hi
    rw [hval, List.getElem?_eq_getElem hi']
    simp only [if_neg hc, List.getD_eq_getElem _ _ hi']

/-- Witness for C3 at concrete one-class parents. -/
theorem crossover_spec_witness :
    ∃ ch, crossover ⟨[cEx], 1⟩ ⟨[cEx2], 1⟩ (fun _ => false) = some ch ∧
      ch.classes.length = (⟨[cEx], 1⟩ : Schedule).classes.length ∧
      (∀ i : Nat, i < ch.classes.length →
        ch.classes[i]? = (⟨[cEx], 1⟩ : Schedule).classes[i]? ∨
        ch.classes[i]? = (⟨[cEx2], 1⟩ : Schedule).classes[i]?) ∧
      ch.fitness = calculate_fitness ch.classes :=
  crossover_spec ⟨[cEx], 1⟩ ⟨[cEx2], 1⟩ (fun _ => false) (by decide)

/-- Claim C4: a successful mutation keeps the candidate's length, changes at
most one position (and only its instructor, room and time-slot fields: every
position keeps its subject), and the fitness is recomputed from the mutated
classes. -/
theorem mutateS_spec (instructors rooms : List String) (time_slots : Nat)
    (s : Schedule) (j ii ri ti : Nat) (s' : Schedule)
    (h : mutateS instructors rooms time_slots s j ii ri ti = some s') :
    s'.classes.length = s.classes.length ∧
    (∃ p, ∀ i : Nat, i ≠ p → s'.classes[i]? = s.classes[i]?) ∧
    (∀ i : Nat, (s'.classes[i]?).map Class.subject =
      (s.classes[i]?).map Class.subject) ∧
    s'.fitness = calculate_fitness s'.classes := by
  by_cases he : s.classes.isEmpty
  · rw [mutateS, if_pos he, Option.some.injEq] at h
    subst h
    exact ⟨rfl, ⟨0, fun _ _ => rfl⟩, fun _ => rfl, rfl⟩
  · rw [mutateS, if_neg he] at h
    simp only [bind, Option.bind_eq_some, Option.some_bind, Option.none_bind,
      Option.pure_def] at h
    obtain ⟨instr, hinstr, room, hroom, h⟩ := h
    by_cases ht : 0 < time_slots
    case neg =>
      rw [if_neg ht] at h
      simp at h
    rw [if_pos ht, Option.some.injEq] at h
    subst h
    have hlen : 0 < s.classes.length := by
      cases hc : s.classes with
      | nil => rw [hc] at he; simp at he
      | cons x xs => simp [hc]
    have hpos : j % s.classes.length < s.classes.length := Nat.mod_lt _ hlen
    refine ⟨List.length_set _ _ _, ⟨j % s.classes.length, ?_⟩, ?_, rfl⟩
    · intro i hi
      exact List.getElem?_set_ne (fun hc => hi hc.symm)
    · intro i
      by_cases hi : i = j % s.classes.length
      · subst hi
        rw [List.getElem?_set_self hpos, List.getElem?_eq_getElem hpos]
        simp [List.getD_eq_getElem _ _ hpos, List.getElem?_eq_getElem hpos]
      · rw [List.getElem?_set_ne (fun hc => hi hc.symm)]

/-- Witness for C4 at a concrete one-class candidate. -/
theorem mutateS_spec_witness :
    (⟨[⟨"Math", "i", "r", 0⟩],
        calculate_fitness [⟨"Math", "i", "r", 0⟩]⟩ : Schedule).classes.length =
      (⟨[cEx], 1⟩ : Schedule).classes.length ∧
    (∃ p, ∀ i : Nat, i ≠ p →
      (⟨[⟨"Math", "i", "r", 0⟩],
          calculate_fitness [⟨"Math", "i", "r", 0⟩]⟩ : Schedule).classes[i]? =
        (⟨[cEx], 1⟩ : Schedule).classes[i]?) ∧
    (∀ i : Nat, ((⟨[⟨"Math", "i", "r", 0⟩],
          calculate_fitness [⟨"Math", "i", "r", 0⟩]⟩ :
            Schedule).classes[i]?).map Class.subject =
      ((⟨[cEx], 1⟩ : Schedule).classes[i]?).map Class.subject) ∧
    (⟨[⟨"Math", "i", "r", 0⟩],
        calculate_fitness [⟨"Math", "i", "r", 0⟩]⟩ : Schedule).fitness =
      calculate_fitness (⟨[⟨"Math", "i", "r", 0⟩],
        calculate_fitness [⟨"Math", "i", "r", 0⟩]⟩ : Schedule).classes :=
  mutateS_spec ["i"] ["r"] 1 ⟨[cEx], 1⟩ 0 0 0 0 _ (by rfl)

/-! ### Inversion lemmas for the candidate factory and the operators -/

theorem mem_set_cases {α : Type} {x c : α} :
    ∀ {l : List α} {p : Nat}, c ∈ l.set p x → c = x ∨ c ∈ l := by
  intro l
  induction l with
  | nil => intro p h; simp at h
  | cons a l ih =>
    intro p h
    cases p with
    | zero =>
      rcases List.mem_cons.mp h with rfl | h'
      · exact Or.inl rfl
      · exact Or.inr (List.mem_cons_of_mem _ h')
    | succ p =>
      rcases List.mem_cons.mp h with rfl | h'
      · exact Or.inr (List.mem_cons_self _ _)
      · rcases ih h' with rfl | h''
        · exact Or.inl rfl
        · exact Or.inr (List.mem_cons_of_mem _ h'')

theorem crossoverClasses_inv {a b cs : List Class} {coins : Nat → Bool}
    (h : crossoverClasses a b coins = some cs) :
    cs.length = a.length ∧
    (∀ i : Nat, i < cs.length → cs[i]? = a[i]? ∨ cs[i]? = b[i]?) ∧
    (∀ c ∈ cs, c ∈ a ∨ c ∈ b) := by
  have hf := mapO_some_iff.mp h
  have hlen : cs.length = a.length := by
    have hl := hf.length_eq
    simpa using hl.symm
  refine ⟨hlen, ?_, ?_⟩
  · intro i hi
    have hia : i < a.length := hlen ▸ hi
    have hr : (List.range a.length)[i]? = some i := List.getElem?_range hia
    have hcs : cs[i]? = some cs[i] := List.getElem?_eq_getElem hi
    have hR := forall₂_getElem? hf hr hcs
    by_cases hc : coins i
    · left
      rw [if_pos hc] at hR
      rw [hcs]
      exact hR.symm
    · right
      rw [if_neg hc] at hR
      rw [hcs]
      exact hR.symm
  · intro c hc
    obtain ⟨i, _, hR⟩ := forall₂_mem_right hf c hc
    by_cases hcoin : coins i
    · left
      rw [if_pos hcoin] at hR
      exact List.getElem?_mem hR
    · right
      rw [if_neg hcoin] at hR
      exact List.getElem?_mem hR

theorem mutateS_inv {instructors rooms : List String} {time_slots : Nat}
    {s : Schedule} {j ii ri ti : Nat} {s' : Schedule}
    (h : mutateS instructors rooms time_slots s j ii ri ti = some s') :
    s'.fitness = calculate_fitness s'.classes ∧
    (s'.classes = s.classes ∨
      ∃ pos instr room,
        pos < s.classes.length ∧ instr ∈ instructors ∧ room ∈ rooms ∧
        0 < time_slots ∧
        s'.classes = s.classes.set pos
          { (s.classes.getD pos default) with
              instructor := instr,
              room := room,
              time_slot := ti % time_slots }) := by
  by_cases he : s.classes.isEmpty
  · rw [mutateS, if_pos he, Option.some.injEq] at h
    subst h
    exact ⟨rfl, Or.inl rfl⟩
  · rw [mutateS, if_neg he] at h
    simp only [bind, Option.bind_eq_some, Option.some_bind, Option.none_bind,
      Option.pure_def] at h
    obtain ⟨instr, hinstr, room, hroom, h⟩ := h
    by_cases ht : 0 < time_slots
    case neg =>
      rw [if_neg ht] at h
      simp at h
    rw [if_pos ht, Option.some.injEq] at h
    subst h
    have hlen : 0 < s.classes.length := by
      cases hc : s.classes with
      | nil => rw [hc] at he; simp at he
      | cons x xs => simp [hc]
    refine ⟨rfl, Or.inr ⟨j % s.classes.length, instr, room,
      Nat.mod_lt _ hlen, List.getElem?_mem hinstr, List.getElem?_mem hroom,
      ht, ?_⟩⟩
    simp [List.getD]

theorem buildClasses_inv {instructors rooms : List String} {time_slots : Nat}
    {picks : Nat → Nat × Nat × Nat} :
    ∀ {subjects : List String} {k : Nat} {cs : List Class},
      buildClasses instructors rooms time_slots picks subjects k = some cs →
      cs.length = subjects.length ∧
      (∀ i : Nat, i < cs.length →
        (cs.getD i default).subject = subjects.getD i "") ∧
      ∀ c ∈ cs, c.instructor ∈ instructors ∧ c.room ∈ rooms ∧
        c.time_slot < time_slots := by
  intro subjects
  induction subjects with
  | nil =>
    intro k cs h
    simp only [buildClasses, Option.some.injEq] at h
    subst h
    refine ⟨rfl, ?_, ?_⟩
    · intro i hi
      simp at hi
    · intro c hc
      simp at hc
  | cons subj rest ih =>
    intro k cs h
    rw [buildClasses] at h
    simp only [bind, Option.bind_eq_some, Option.some_bind, Option.none_bind,
      Option.pure_def] at h
    obtain ⟨instr, hinstr, room, hroom, h⟩ := h
    by_cases ht : 0 < time_slots
    case neg =>
      rw [if_neg ht] at h
      simp at h
    rw [if_pos ht] at h
    simp only [Option.bind_eq_some, Option.some.injEq] at h
    obtain ⟨tail, htail, hcs⟩ := h
    subst hcs
    have htslt : (picks k).2.2 % time_slots < time_slots := Nat.mod_lt _ ht
    obtain ⟨ihlen, ihsub, ihmem⟩ := ih htail
    refine ⟨by simp [ihlen], ?_, ?_⟩
    · intro i hi
      cases i with
      | zero => rfl
      | succ i =>
        simp only [List.getD_cons_succ]
        exact ihsub i (by simpa using hi)
    · intro c hc
      rcases List.mem_cons.mp hc with rfl | hc'
      · exact ⟨List.getElem?_mem hinstr, List.getElem?_mem hroom, htslt⟩
      · exact ihmem c hc'

theorem schedule_new_inv {subjects instructors rooms : List String}
    {time_slots : Nat} {picks : Nat → Nat × Nat × Nat} {sch : Schedule}
    (h : schedule_new subjects instructors rooms time_slots picks =
      some sch) :
    sch.fitness = calculate_fitness sch.classes ∧
    sch.classes.length = subjects.length ∧
    (∀ i : Nat, i < sch.classes.length →
      (sch.classes.getD i default).subject = subjects.getD i "") ∧
    ∀ c ∈ sch.classes, c.instructor ∈ instructors ∧ c.room ∈ rooms ∧
      c.time_slot < time_slots := by
  rw [schedule_new] at h
  simp only [bind, Option.bind_eq_some, Option.pure_def,
    Option.some.injEq] at h
  obtain ⟨cs, hcs, hsch⟩ := h
  subst hsch
  obtain ⟨h1, h2, h3⟩ := buildClasses_inv hcs
  exact ⟨rfl, h1, h2, h3⟩

/-- Claim C6: with two courses forced onto a single instructor, a single room
and a single time slot, every candidate that the factory, crossover or
mutation can produce has at least one room conflict and at least one
instructor conflict — a room-conflict description and an instructor-conflict
description are both reported — so its conflict count is at least 2: the
pinned shape is established by the factory and preserved by both operators,
and any pinned two-class candidate exhibits both conflict kinds. -/
theorem scenarioB_conflicts (i0 r0 s1 s2 : String) :
    (∀ cs : List Class, cs.length = 2 → pinned i0 r0 cs →
      roomMsg (r0, 0) ∈ conflict_details cs ∧
      instructorMsg (i0, 0) ∈ conflict_details cs ∧
      2 ≤ conflict_count cs) ∧
    (∀ picks sch, schedule_new [s1, s2] [i0] [r0] 1 picks = some sch →
      sch.classes.length = 2 ∧ pinned i0 r0 sch.classes) ∧
    (∀ (a b : Schedule) (coins : Nat → Bool) (ch : Schedule),
      a.classes.length = 2 → pinned i0 r0 a.classes → pinned i0 r0 b.classes →
      crossover a b coins = some ch →
      ch.classes.length = 2 ∧ pinned i0 r0 ch.classes) ∧
    (∀ (s : Schedule) (j ii ri ti : Nat) (s' : Schedule),
      s.classes.length = 2 → pinned i0 r0 s.classes →
      mutateS [i0] [r0] 1 s j ii ri ti = some s' →
      s'.classes.length = 2 ∧ pinned i0 r0 s'.classes) := by
  refine ⟨?_, ?_, ?_, ?_⟩
  · intro cs hlen hpin
    obtain ⟨x, y, rfl⟩ := List.length_eq_two.mp hlen
    obtain ⟨hxi, hxr, hxt⟩ := hpin x (by simp)
    obtain ⟨hyi, hyr, hyt⟩ := hpin y (by simp)
    refine ⟨?_, ?_, ?_⟩
    · unfold conflict_details conflictData
      simp only [List.foldl_cons, List.foldl_nil, fitnessStep_details,
        fitnessStep_room_map, fitnessStep_instructor_map,
        fitnessStep_course_map]
      simp only [initFitState, roomKey, instructorKey, courseKey,
        hxi, hxr, hxt, hyi, hyr, hyt, List.not_mem_nil, if_false,
        List.mem_singleton, Prod.mk.injEq]
      split_ifs <;> simp
    · unfold conflict_details conflictData
      simp only [List.foldl_cons, List.foldl_nil, fitnessStep_details,
        fitnessStep_room_map, fitnessStep_instructor_map,
        fitnessStep_course_map]
      simp only [initFitState, roomKey, instructorKey, courseKey,
        hxi, hxr, hxt, hyi, hyr, hyt, List.not_mem_nil, if_false,
        List.mem_singleton, Prod.mk.injEq]
      split_ifs <;> simp
    · unfold conflict_count conflictData
      simp only [List.foldl_cons, List.foldl_nil, fitnessStep_conflicts,
        fitnessStep_room_map, fitnessStep_instructor_map,
        fitnessStep_course_map]
      simp only [initFitState, roomKey, instructorKey, courseKey,
        hxi, hxr, hxt, hyi, hyr, hyt, List.not_mem_nil, if_false,
        List.mem_singleton, Prod.mk.injEq]
      split_ifs <;> omega
  · intro picks sch h
    obtain ⟨_, hlen, _, hmem⟩ := schedule_new_inv h
    refine ⟨by simpa using hlen, ?_⟩
    intro c hc
    obtain ⟨hi, hr, ht⟩ := hmem c hc
    exact ⟨by simpa using hi, by simpa using hr, by omega⟩
  · intro a b coins ch hlen2 hpa hpb hx
    rw [crossover] at hx
    simp only [bind, Option.bind_eq_some, Option.pure_def,
      Option.some.injEq] at hx
    obtain ⟨cs, hcs, hch⟩ := hx
    subst hch
    obtain ⟨hlen, _, hmem⟩ := crossoverClasses_inv hcs
    refine ⟨by rw [hlen]; exact hlen2, ?_⟩
    intro c hc
    rcases hmem c hc with h | h
    · exact hpa c h
    · exact hpb c h
  · intro s j ii ri ti s' hlen2 hp hm
    obtain ⟨_, hcase⟩ := mutateS_inv hm
    rcases hcase with heq | ⟨pos, instr, room, hpos, hinstr, hroom, ht0, heq⟩
    · rw [heq]
      exact ⟨hlen2, hp⟩
    · rw [heq]
      refine ⟨by simp [hlen2], ?_⟩
      intro c hc
      rcases mem_set_cases hc with rfl | hmem
      · exact ⟨by simpa using hinstr, by simpa using hroom, by
          simpa using Nat.mod_lt ti ht0⟩
      · exact hp c hmem

/-- Witness for C6: a concrete pinned two-class candidate reports a room
conflict and an instructor conflict and has at least two conflicts. -/
theorem scenarioB_conflicts_witness :
    roomMsg ("R", 0) ∈
      conflict_details [⟨"A", "I", "R", 0⟩, ⟨"B", "I", "R", 0⟩] ∧
    instructorMsg ("I", 0) ∈
      conflict_details [⟨"A", "I", "R", 0⟩, ⟨"B", "I", "R", 0⟩] ∧
    2 ≤ conflict_count [⟨"A", "I", "R", 0⟩, ⟨"B", "I", "R", 0⟩] :=
  (scenarioB_conflicts "I" "R" "A" "B").1
    [⟨"A", "I", "R", 0⟩, ⟨"B", "I", "R", 0⟩] (by decide) (by decide)

/-- Claim C8: every candidate produced by the factory, by crossover of
aligned parents, or by mutation has exactly one class per course of the
problem input, in input order: the length equals the number of courses and
the subject at each position is the input course at that position. -/
theorem course_invariant (subjects instructors rooms : List String)
    (time_slots : Nat) :
    (∀ picks sch,
      schedule_new subjects instructors rooms time_slots picks = some sch →
      alignedWith subjects sch.classes) ∧
    (∀ (a b : Schedule) (coins : Nat → Bool) (ch : Schedule),
      alignedWith subjects a.classes → alignedWith subjects b.classes →
      crossover a b coins = some ch → alignedWith subjects ch.classes) ∧
    (∀ (s : Schedule) (j ii ri ti : Nat) (s' : Schedule),
      alignedWith subjects s.classes →
      mutateS instructors rooms time_slots s j ii ri ti = some s' →
      alignedWith subjects s'.classes) := by
  refine ⟨?_, ?_, ?_⟩
  · intro picks sch h
    obtain ⟨_, hlen, hsub, _⟩ := schedule_new_inv h
    exact ⟨hlen, hsub⟩
  · intro a b coins ch ha hb hx
    rw [crossover] at hx
    simp only [bind, Option.bind_eq_some, Option.pure_def,
      Option.some.injEq] at hx
    obtain ⟨cs, hcs, hch⟩ := hx
    subst hch
    obtain ⟨hlen, hpt, _⟩ := crossoverClasses_inv hcs
    refine ⟨hlen.trans ha.1, ?_⟩
    intro i hi
    have hia : i < a.classes.length := hlen ▸ hi
    rcases hpt i hi with h | h
    · have hgd : cs.getD i default = a.classes.getD i default := by
        rw [List.getD_eq_getElem?_getD, List.getD_eq_getElem?_getD, h]
      rw [hgd]
      exact ha.2 i hia
    · have hib : i < b.classes.length := by
        rw [hb.1, ← ha.1]
        exact hia
      have hgd : cs.getD i default = b.classes.getD i default := by
        rw [List.getD_eq_getElem?_getD, List.getD_eq_getElem?_getD, h]
      rw [hgd]
      exact hb.2 i hib
  · intro s j ii ri ti s' hs hm
    obtain ⟨_, hcase⟩ := mutateS_inv hm
    rcases hcase with heq | ⟨pos, instr, room, hpos, _, _, _, heq⟩
    · rw [heq]
      exact hs
    · rw [heq]
      refine ⟨by rw [List.length_set]; exact hs.1, ?_⟩
      intro i hi
      rw [List.length_set] at hi
      by_cases hip : i = pos
      · subst hip
        rw [List.getD_eq_getElem?_getD, List.getElem?_set_self hpos]
        simpa using hs.2 i hi
      · rw [List.getD_eq_getElem?_getD,
          List.getElem?_set_ne (fun hc => hip hc.symm),
          ← List.getD_eq_getElem?_getD]
        exact hs.2 i hi

/-- Witness for C8: the factory part applied at a concrete two-course
problem. -/
theorem course_invariant_witness :
    alignedWith ["Math", "Physics"]
      (⟨[⟨"Math", "i", "r", 0⟩, ⟨"Physics", "i", "r", 0⟩],
        calculate_fitness [⟨"Math", "i", "r", 0⟩, ⟨"Physics", "i", "r", 0⟩]⟩ :
          Schedule).classes :=
  (course_invariant ["Math", "Physics"] ["i"] ["r"] 1).1 (fun _ => (0, 0, 0))
    _ (by rfl)

/-- Claim C10: with a strictly positive number of time slots, every class of
every candidate produced by the factory, by crossover of bounded parents, or
by mutation has a time slot strictly below the configured bound. -/
theorem time_slot_invariant (subjects instructors rooms : List String)
    (time_slots : Nat) (hts : 0 < time_slots) :
    (∀ picks sch,
      schedule_new subjects instructors rooms time_slots picks = some sch →
      tsBounded time_slots sch.classes) ∧
    (∀ (a b : Schedule) (coins : Nat → Bool) (ch : Schedule),
      tsBounded time_slots a.classes → tsBounded time_slots b.classes →
      crossover a b coins = some ch → tsBounded time_slots ch.classes) ∧
    (∀ (s : Schedule) (j ii ri ti : Nat) (s' : Schedule),
      tsBounded time_slots s.classes →
      mutateS instructors rooms time_slots s j ii ri ti = some s' →
      tsBounded time_slots s'.classes) := by
  refine ⟨?_, ?_, ?_⟩
  · intro picks sch h
    obtain ⟨_, _, _, hmem⟩ := schedule_new_inv h
    intro c hc
    exact (hmem c hc).2.2
  · intro a b coins ch ha hb hx
    rw [crossover] at hx
    simp only [bind, Option.bind_eq_some, Option.pure_def,
      Option.some.injEq] at hx
    obtain ⟨cs, hcs, hch⟩ := hx
    subst hch
    obtain ⟨_, _, hmem⟩ := crossoverClasses_inv hcs
    intro c hc
    rcases hmem c hc with h | h
    · exact ha c h
    · exact hb c h
  · intro s j ii ri ti s' hs hm
    obtain ⟨_, hcase⟩ := mutateS_inv hm
    rcases hcase with heq | ⟨pos, instr, room, hpos, _, _, _, heq⟩
    · rw [heq]
      exact hs
    · rw [heq]
      intro c hc
      rcases mem_set_cases hc with rfl | hmem
      · simpa using Nat.mod_lt ti hts
      · exact hs c hmem

/-- Witness for C10: the factory part applied at a concrete problem with one
time slot. -/
theorem time_slot_invariant_witness :
    tsBounded 1
      (⟨[⟨"Math", "i", "r", 0⟩, ⟨"Physics", "i", "r", 0⟩],
        calculate_fitness [⟨"Math", "i", "r", 0⟩, ⟨"Physics", "i", "r", 0⟩]⟩ :
          Schedule).classes :=
  (time_slot_invariant ["Math", "Physics"] ["i"] ["r"] 1 (by decide)).1
    (fun _ => (0, 0, 0)) _ (by rfl)

/-- Claim C9: every fitness produced by `calculate_fitness` is, in the
NaN-aware `f64` model, a finite value (never NaN) in `(0, 1]`, so the
`partial_cmp` of any two such values is `some` — the `unwrap` in the
population sort can never panic. -/
theorem fitness_cmp_total (c₁ c₂ : List Class) :
    calculate_fitnessF c₁ = F.val (calculate_fitness c₁) ∧
    0 < calculate_fitness c₁ ∧ calculate_fitness c₁ ≤ 1 ∧
    ∃ o, fcmp (calculate_fitnessF c₂) (calculate_fitnessF c₁) = some o := by
  have hval : ∀ c : List Class,
      calculate_fitnessF c = F.val (calculate_fitness c) := by
    intro c
    have hne : (1 : ℚ) + (conflict_count c : ℚ) ≠ 0 := by positivity
    unfold calculate_fitnessF addF divF calculate_fitness
    simp [hne]
  have hpos : ∀ c : List Class, (0 : ℚ) < 1 + (conflict_count c : ℚ) := by
    intro c
    positivity
  refine ⟨hval c₁, ?_, ?_, ?_⟩
  · unfold calculate_fitness
    positivity
  · unfold calculate_fitness
    rw [div_le_one (hpos c₁)]
    have hk : (0 : ℚ) ≤ (conflict_count c₁ : ℚ) := Nat.cast_nonneg _
    linarith
  · rw [hval c₁, hval c₂]
    exact ⟨_, rfl⟩

/-! ### The best fitness of a population -/

theorem bestFit_cons (a : Schedule) (l : List Schedule) :
    bestFit (a :: l) = max ((a.fitness : ℚ) : WithBot ℚ) (bestFit l) := rfl

theorem le_bestFit {s : Schedule} :
    ∀ {pop : List Schedule}, s ∈ pop →
      ((s.fitness : ℚ) : WithBot ℚ) ≤ bestFit pop := by
  intro pop
  induction pop with
  | nil => intro h; simp at h
  | cons a l ih =>
    intro h
    rw [bestFit_cons]
    rcases List.mem_cons.mp h with rfl | h'
    · exact le_max_left _ _
    · exact le_trans (ih h') (le_max_right _ _)

theorem bestFit_le {m : WithBot ℚ} :
    ∀ {pop : List Schedule}, (∀ s ∈ pop, ((s.fitness : ℚ) : WithBot ℚ) ≤ m) →
      bestFit pop ≤ m := by
  intro pop
  induction pop with
  | nil => intro _; exact bot_le
  | cons a l ih =>
    intro h
    rw [bestFit_cons]
    exact max_le (h a (List.mem_cons_self _ _))
      (ih fun s hs => h s (List.mem_cons_of_mem _ hs))

/-- Claim C5: one iteration of the generation loop never decreases the best
fitness present in the population, for every random outcome: the sorted
population's head is carried forward unchanged inside the top-half parent
slice. -/
theorem best_fitness_monotone (instructors rooms : List String)
    (time_slots population_size : Nat) (cr : Nat → ChildRand)
    (pop pop' : List Schedule) (hlen : pop.length = population_size)
    (h : evolveStep instructors rooms time_slots population_size cr pop =
      some pop') :
    bestFit pop ≤ bestFit pop' := by
  unfold evolveStep at h
  simp only [bind, Option.bind_eq_some, Option.some_bind, Option.none_bind,
    Option.pure_def, Option.some.injEq] at h
  obtain ⟨best, hbest, h⟩ := h
  by_cases hguard : population_size / 2 ≤ (sortPop pop).length
  case neg =>
    rw [if_neg hguard] at h
    exact absurd h (by simp)
  rw [if_pos hguard] at h
  simp only [Option.bind_eq_some, Option.some.injEq] at h
  obtain ⟨children, hchil, hpop'⟩ := h
  subst hpop'
  have hperm : (sortPop pop).Perm pop := List.perm_insertionSort fitGe pop
  obtain ⟨tl, hsorted⟩ : ∃ tl, sortPop pop = best :: tl := by
    cases hs : sortPop pop with
    | nil => rw [hs] at hbest; simp at hbest
    | cons a tl =>
      rw [hs] at hbest
      simp only [List.getElem?_cons_zero, Option.some.injEq] at hbest
      exact ⟨tl, by rw [hbest]⟩
  have hlen1 : 1 ≤ population_size := by
    have hl := hperm.length_eq
    rw [hsorted] at hl
    simp only [List.length_cons] at hl
    omega
  have hhalf : 1 ≤ population_size / 2 := by
    by_contra hc
    have hps1 : population_size = 1 := by omega
    rw [hps1] at hchil
    simp only [Nat.reduceDiv, List.take_zero, List.length_nil,
      Nat.sub_zero] at hchil
    have hnone : makeChildren instructors rooms time_slots [] cr 1 0 =
        none := rfl
    rw [hnone] at hchil
    exact Option.noConfusion hchil
  have hbestmem : best ∈ (sortPop pop).take (population_size / 2) := by
    rw [hsorted]
    obtain ⟨k, hk⟩ : ∃ k, population_size / 2 = k + 1 :=
      ⟨population_size / 2 - 1, by omega⟩
    rw [hk, List.take_succ_cons]
    exact List.mem_cons_self _ _
  have hbest' : best ∈ (sortPop pop).take (population_size / 2) ++ children :=
    List.mem_append_left _ hbestmem
  have hsortSorted : List.Sorted fitGe (sortPop pop) :=
    List.sorted_insertionSort fitGe pop
  have hall : ∀ s ∈ pop,
      ((s.fitness : ℚ) : WithBot ℚ) ≤ ((best.fitness : ℚ) : WithBot ℚ) := by
    intro s hs
    have hs' : s ∈ sortPop pop := hperm.mem_iff.mpr hs
    rw [hsorted] at hs'
    rcases List.mem_cons.mp hs' with rfl | hs''
    · exact le_refl _
    · have hge : fitGe best s :=
        (List.pairwise_cons.mp (hsorted ▸ hsortSorted)).1 s hs''
      exact WithBot.coe_le_coe.mpr hge
  calc bestFit pop ≤ ((best.fitness : ℚ) : WithBot ℚ) := bestFit_le hall
    _ ≤ bestFit ((sortPop pop).take (population_size / 2) ++ children) :=
      le_bestFit hbest'

/-! ### Concrete evaluation of the loop on a two-schedule population -/

theorem sortPop_pair : sortPop [sEx0, sEx0] = [sEx0, sEx0] := by
  simp [sortPop, List.insertionSort, List.orderedInsert, fitGe]

theorem evolveStep_pair :
    evolveStep ["i"] ["r"] 1 2 (fun _ => crEx) [sEx0, sEx0] =
      some [sEx0, sEx0] := by
  unfold evolveStep
  rw [sortPop_pair]
  rfl

theorem runGens_pair :
    runGens ["i"] ["r"] 1 2 (fun _ _ => crEx) 1 0 [sEx0, sEx0] =
      some [sEx0, sEx0] := by
  show (evolveStep ["i"] ["r"] 1 2 (fun _ => crEx) [sEx0, sEx0]).bind
      (fun pop' => runGens ["i"] ["r"] 1 2 (fun _ _ => crEx) 0 1 pop') =
    some [sEx0, sEx0]
  rw [evolveStep_pair]
  rfl

theorem initPop_empty_courses :
    initPop [] ["i"] ["r"] 1 (fun _ _ => (0, 0, 0)) 2 = some [sEx0, sEx0] :=
  rfl

theorem geneticAlgorithm_empty_courses :
    geneticAlgorithm [] ["i"] ["r"] 1 2 1 (fun _ _ => (0, 0, 0))
      (fun _ _ => crEx) = some sEx0 := by
  unfold geneticAlgorithm
  rw [initPop_empty_courses]
  simp only [bind, Option.some_bind]
  rw [runGens_pair]
  simp only [Option.some_bind]
  rw [sortPop_pair]
  rfl

/-- Witness for C5: one evolution step on a concrete two-schedule population
succeeds and does not decrease the best fitness. -/
theorem best_fitness_monotone_witness :
    bestFit [sEx0, sEx0] ≤ bestFit [sEx0, sEx0] :=
  best_fitness_monotone ["i"] ["r"] 1 2 (fun _ => crEx) [sEx0, sEx0]
    [sEx0, sEx0] (by rfl) evolveStep_pair

/-- Counterexample to claim C7 as stated: the empty course list is one of the
claim's invalid configurations, yet `genetic_algorithm` does not report any
error for it — with otherwise valid pools it runs to completion and returns
an empty schedule of fitness 1 instead of failing. -/
theorem invalid_config_not_reported :
    geneticAlgorithm [] ["i"] ["r"] 1 2 1 (fun _ _ => (0, 0, 0))
      (fun _ _ => crEx) = some sEx0 ∧
    geneticAlgorithm [] ["i"] ["r"] 1 2 1 (fun _ _ => (0, 0, 0))
      (fun _ _ => crEx) ≠ none :=
  ⟨geneticAlgorithm_empty_courses, by
    rw [geneticAlgorithm_empty_courses]
    exact Option.some_ne_none _⟩

/-- Claim C7 (amended): with at least one course and a nonempty population,
an empty instructor pool, an empty room pool or an empty time domain is fatal
during construction of the initial population, before any evolution step
runs; the failure propagates to the caller of `genetic_algorithm` and is not
retried. (An empty course list is accepted, and a too-small population only
fails once the loop actually draws parents.) -/
theorem invalid_pools_fatal (subjects instructors rooms : List String)
    (time_slots population_size generations : Nat)
    (ir : Nat → Nat → Nat × Nat × Nat) (gr : Nat → Nat → ChildRand)
    (hsub : subjects ≠ []) (hpop : 0 < population_size)
    (hbad : instructors = [] ∨ rooms = [] ∨ time_slots = 0) :
    initPop subjects instructors rooms time_slots ir population_size =
      none ∧
    geneticAlgorithm subjects instructors rooms time_slots population_size
      generations ir gr = none := by
  have hbuild : ∀ picks : Nat → Nat × Nat × Nat,
      buildClasses instructors rooms time_slots picks subjects 0 = none := by
    intro picks
    obtain ⟨s0, rest, rfl⟩ : ∃ s0 rest, subjects = s0 :: rest := by
      cases subjects with
      | nil => exact absurd rfl hsub
      | cons a l => exact ⟨a, l, rfl⟩
    rw [buildClasses]
    rcases hbad with hI | hR | hT
    · subst hI
      rfl
    · subst hR
      cases hI2 : instructors[(picks 0).1 % instructors.length]? with
      | none => simp [bind, hI2]
      | some v => simp [bind, hI2]
    · subst hT
      simp only [bind]
      cases hI2 : instructors[(picks 0).1 % instructors.length]? <;>
        simp [hI2]
  have hnew : ∀ picks : Nat → Nat × Nat × Nat,
      schedule_new subjects instructors rooms time_slots picks = none := by
    intro picks
    unfold schedule_new
    rw [hbuild picks]
    rfl
  have hinit : initPop subjects instructors rooms time_slots ir
      population_size = none := by
    obtain ⟨n, rfl⟩ : ∃ n, population_size = n + 1 :=
      ⟨population_size - 1, by omega⟩
    unfold initPop
    rw [List.range_succ_eq_map]
    simp [mapO, hnew]
  refine ⟨hinit, ?_⟩
  unfold geneticAlgorithm
  rw [hinit]
  rfl

/-- Witness for the amended C7 at a concrete invalid configuration (empty
instructor pool). -/
theorem invalid_pools_fatal_witness :
    initPop ["Math"] [] ["r"] 1 (fun _ _ => (0, 0, 0)) 1 = none ∧
    geneticAlgorithm ["Math"] [] ["r"] 1 1 0 (fun _ _ => (0, 0, 0))
      (fun _ _ => crEx) = none :=
  invalid_pools_fatal ["Math"] [] ["r"] 1 1 0 (fun _ _ => (0, 0, 0))
    (fun _ _ => crEx) (by decide) (by decide) (Or.inl rfl)

end ClaSchedGA
